import Mathlib

/-!
Shallow embedding of the configuration-resolution engine of the
`cdk-pipeline` repository (files `cdk_pipeline/yaml_handlers.py` and
`cdk_pipeline/config_loader.py`), together with theorems settling the
frozen claims about it.

Modelling conventions:
* A parsed YAML tree is the inductive `Yaml`.  Mappings are ordered
  association lists with string keys (the configuration format only uses
  string keys); Python `dict` semantics (insertion order, in-place update
  of an existing key) are modelled by `lookupKey` / `setKey`.
* Python exceptions become the `Except CfgError` monad.  The error
  constructors follow the `raise` sites of the source.
* Python `str.replace` is modelled by `replaceFuel` (fuel-indexed so that
  it is structurally recursive; the fuel is the length of the scanned
  string, which is always sufficient).  The pattern argument is nonempty
  at every call site (`"${" + name + "}"`), which is the case the model
  is faithful for.
* Python `int(...)` is modelled by `pyInt?` (optional surrounding
  whitespace, optional sign, decimal digits; the rarely used underscore
  digit separators and non-ASCII digits of CPython are not modelled).
* Python `str(...)` is modelled by `pyStr`/`pyRepr`.  The default object
  repr of tag instances contains a memory address, which has no
  counterpart in the model; a fixed placeholder text is used.  String
  escaping inside `repr` is not modelled.  No claim depends on these.
* File loading inside `_process_includes` is modelled by a lookup in an
  explicit file-system map from path to parsed fragment; `os.path.exists`
  is the success of that lookup.
-/

/-- A parsed YAML value as produced by `yaml.safe_load` with the two
custom tag handlers registered: scalars, sequences, mappings, and the
two unresolved tag nodes `SubTag` (a `!Sub` template string) and
`RefTag` (a `!Ref` reference, parsed into a variable name and an
optional list index as in `RefTag.__init__`). -/
inductive Yaml where
  | s : String → Yaml
  | i : Int → Yaml
  | b : Bool → Yaml
  | null : Yaml
  | list : List Yaml → Yaml
  | map : List (String × Yaml) → Yaml
  | sub : String → Yaml
  | ref : String → Option Int → Yaml

/-- Lookup in a Python dict modelled as an ordered association list:
returns the value of the first (and, under the dict invariant, only)
entry with the given key. -/
def lookupKey {α : Type} (m : List (String × α)) (k : String) : Option α :=
  match m with
  | [] => none
  | (k', v) :: rest => if k' = k then some v else lookupKey rest k

/-- Python dict assignment `m[k] = v`: replaces the value in place if the
key is present (keeping its position), otherwise appends a new entry at
the end (insertion order). -/
def setKey {α : Type} (m : List (String × α)) (k : String) (v : α) : List (String × α) :=
  match m with
  | [] => [(k, v)]
  | (k', v') :: rest => if k' = k then (k, v) :: rest else (k', v') :: setKey rest k v

/-- The characters that the model names explicitly. -/
def dollar : Char := '$'

/-- Left brace character. -/
def lbrace : Char := '\x7b'

/-- Right brace character. -/
def rbrace : Char := '\x7d'

/-- Left bracket character. -/
def lbk : Char := '\x5b'

/-- Right bracket character. -/
def rbk : Char := '\x5d'

/-- Python `str.replace(pat, rep)` on character lists, with an explicit
fuel argument (the length of the scanned list) to make the definition
structurally recursive: scans left to right, replaces each
non-overlapping occurrence of `pat`, and never re-scans the inserted
replacement text.  Faithful for nonempty `pat`, which is the only case
arising in the source (`"${" + name + "}"`). -/
def replaceFuel (pat rep : List Char) : Nat → List Char → List Char
  | _, [] => []
  | 0, st => st
  | fuel + 1, c :: rest =>
      if pat ≠ [] ∧ pat.isPrefixOf (c :: rest) then
        rep ++ replaceFuel pat rep fuel ((c :: rest).drop pat.length)
      else
        c :: replaceFuel pat rep fuel rest

/-- Python `s.replace(pat, rep)` for strings (nonempty `pat`). -/
def pyReplace (st pat rep : String) : String :=
  String.mk (replaceFuel pat.toList rep.toList st.toList.length st.toList)

/-- Strip leading and trailing whitespace, as `int(...)` does before
parsing. -/
def trimWs (st : List Char) : List Char :=
  ((st.dropWhile Char.isWhitespace).reverse.dropWhile Char.isWhitespace).reverse

/-- Numeric value of a list of decimal digit characters. -/
def digitsVal (ds : List Char) : Nat :=
  ds.foldl (fun a c => a * 10 + (c.toNat - 48)) 0

/-- Python `int(string)`, returning `none` where CPython raises
`ValueError`: optional surrounding whitespace, optional single sign,
then one or more decimal digits. -/
def pyInt? (st : List Char) : Option Int :=
  match trimWs st with
  | [] => none
  | c :: ds =>
      if c = '+' then
        if ds ≠ [] ∧ ds.all Char.isDigit then some (digitsVal ds) else none
      else if c = '-' then
        if ds ≠ [] ∧ ds.all Char.isDigit then some (-(digitsVal ds : Int)) else none
      else if (c :: ds).all Char.isDigit then some (digitsVal (c :: ds)) else none

/-- Python `value.split(c, 1)`: the part before the first occurrence of
`c` and the part after it (the whole list and `[]` if `c` does not
occur, matching how the result is used when `c` is known to occur). -/
def splitFirst (c : Char) : List Char → List Char × List Char
  | [] => ([], [])
  | x :: rest =>
      if x = c then ([], rest)
      else
        match splitFirst c rest with
        | (before, after) => (x :: before, after)

mutual
/-- Python `str(value)` for a YAML value: a plain string prints as
itself, every other value prints as its `repr`. -/
def pyStr : Yaml → String
  | .s str => str
  | v => pyRepr v

/-- Python `repr(value)` for a YAML value (string escaping and the
memory address in the default object repr of tag instances are not
modelled; no claim depends on them). -/
def pyRepr : Yaml → String
  | .s str => "\x27" ++ str ++ "\x27"
  | .i n => toString n
  | .b true => "True"
  | .b false => "False"
  | .null => "None"
  | .list xs => "\x5b" ++ ", ".intercalate (pyReprList xs) ++ "\x5d"
  | .map m => "\x7b" ++ ", ".intercalate (pyReprMap m) ++ "\x7d"
  | .sub _ => "<SubTag object>"
  | .ref _ _ => "<RefTag object>"

/-- `repr` of each element of a sequence. -/
def pyReprList : List Yaml → List String
  | [] => []
  | v :: rest => pyRepr v :: pyReprList rest

/-- `repr` of each entry of a mapping. -/
def pyReprMap : List (String × Yaml) → List String
  | [] => []
  | (k, v) :: rest => ("\x27" ++ k ++ "\x27: " ++ pyRepr v) :: pyReprMap rest
end

/-- The `${name}` placeholder text built by `SubTag.resolve` for one
binding name. -/
def phS (name : String) : String :=
  "$\x7b" ++ name ++ "\x7d"

/-- `SubTag.resolve` (`yaml_handlers.py`): one `str.replace` pass per
binding, in the mapping's (insertion) iteration order, replacing every
occurrence of `${name}` with `str(value)`. -/
def SubTag.resolve (value : String) (bindings : List (String × Yaml)) : String :=
  bindings.foldl (fun result p => pyReplace result (phS p.1) (pyStr p.2)) value

/-- Errors raised by the resolution engine, one constructor per `raise`
site of the source. -/
inductive CfgError where
  | includedFileNotFound : String → CfgError
  | malformedFragment : String → String → CfgError
  | missingInputs : String → List String → CfgError
  | refNotFound : String → CfgError
  | typeMismatch : String → CfgError
  | indexOutOfRange : Int → String → CfgError

/-- A `RefTag` instance: the referenced variable name and, when the
literal parsed as a list reference, the integer index.  `index = none`
models `is_list_ref = False` (in which case the source never reads
`self.index`). -/
structure RefTag where
  value : String
  index : Option Int

/-- `RefTag.__init__`: when the literal contains `[` and ends with `]`,
split at the first `[`, drop the trailing `]` and parse the middle with
`int(...)`; on success the reference is an indexed one, on `ValueError`
the entire literal (brackets included) is the variable name.  No
validation of the sign of the index or of non-emptiness of the name is
performed. -/
def RefTag.init (value : String) : RefTag :=
  if value.toList.contains lbk ∧ value.toList.getLast? = some rbk then
    match pyInt? (splitFirst lbk value.toList).2.dropLast with
    | some n => ⟨String.mk (splitFirst lbk value.toList).1, some n⟩
    | none => ⟨value, none⟩
  else ⟨value, none⟩

/-- Python sequence index normalization: a negative index counts from
the end of the sequence. -/
def pyIdx (len : Nat) (idx : Int) : Int :=
  if idx < 0 then idx + (len : Int) else idx

/-- Python sequence indexing `xs[idx]` as used by `RefTag.resolve`: a
negative index counts from the end; an index out of range (on either
side) raises `IndexError`, modelled as `indexOutOfRange`. -/
def pyListGet (name : String) (xs : List Yaml) (idx : Int) : Except CfgError Yaml :=
  if 0 ≤ pyIdx xs.length idx then
    match xs[(pyIdx xs.length idx).toNat]? with
    | some v => .ok v
    | none => .error (.indexOutOfRange idx name)
  else .error (.indexOutOfRange idx name)

/-- `RefTag.resolve` (`yaml_handlers.py`): look the name up in the
bindings (`KeyError` becomes `refNotFound` if absent); for an indexed
reference the bound value must be a sequence (`TypeError` becomes
`typeMismatch`), and the element at the index is returned unchanged
(`IndexError` becomes `indexOutOfRange`). -/
def RefTag.resolve (r : RefTag) (bindings : List (String × Yaml)) : Except CfgError Yaml :=
  match lookupKey bindings r.value with
  | none => .error (.refNotFound r.value)
  | some v =>
      match r.index with
      | none => .ok v
      | some idx =>
          match v with
          | Yaml.list xs => pyListGet r.value xs idx
          | _ => .error (.typeMismatch r.value)

mutual
/-- `process_value` inside `ConfigLoader._process_resource_variables`:
tag nodes are resolved against the bindings, mappings and sequences are
rebuilt recursively, every other value is returned unchanged. -/
def processValue (bindings : List (String × Yaml)) : Yaml → Except CfgError Yaml
  | .sub t => .ok (.s (SubTag.resolve t bindings))
  | .ref n idx => RefTag.resolve ⟨n, idx⟩ bindings
  | .map m =>
      match processMap bindings m with
      | .error e => .error e
      | .ok m' => .ok (.map m')
  | .list l =>
      match processList bindings l with
      | .error e => .error e
      | .ok l' => .ok (.list l')
  | v => .ok v

/-- `process_value` on a mapping: rebuild entry by entry. -/
def processMap (bindings : List (String × Yaml)) :
    List (String × Yaml) → Except CfgError (List (String × Yaml))
  | [] => .ok []
  | (k, v) :: rest =>
      match processValue bindings v with
      | .error e => .error e
      | .ok v' =>
          match processMap bindings rest with
          | .error e => .error e
          | .ok rest' => .ok ((k, v') :: rest')

/-- `process_value` on a sequence: rebuild element by element. -/
def processList (bindings : List (String × Yaml)) : List Yaml → Except CfgError (List Yaml)
  | [] => .ok []
  | v :: rest =>
      match processValue bindings v with
      | .error e => .error e
      | .ok v' =>
          match processList bindings rest with
          | .error e => .error e
          | .ok rest' => .ok (v' :: rest')
end

mutual
/-- `ConfigLoader._merge_resources` as a function from the two mappings
to the merged mapping (the source mutates `target` in place; the final
value of `target` is this result).  Processes `source` key by key in
order. -/
def mergeResources : List (String × Yaml) → List (String × Yaml) → List (String × Yaml)
  | t, [] => t
  | t, (k, v) :: rest => mergeResources (setKey t k (mergeValue (lookupKey t k) v)) rest

/-- The per-key body of `_merge_resources`: key absent in the target
(`none`) inserts the source value; two sequences concatenate
(`target` elements first); two mappings merge recursively; everything
else is overwritten by the source value. -/
def mergeValue : Option Yaml → Yaml → Yaml
  | some (Yaml.list xs), Yaml.list ys => Yaml.list (xs ++ ys)
  | some (Yaml.map tm), Yaml.map sm => Yaml.map (mergeResources tm sm)
  | _, v => v
end

/-- One entry of an include directive's `inputs` list: either a mapping
(its pairs update the binding dict) or a bare name (bound to `None`). -/
inductive InputItem where
  | dict : List (String × Yaml) → InputItem
  | bare : String → InputItem

/-- One entry of a document's `include` list: the fragment path
(`include['config']`) and the supplied inputs. -/
structure IncludeDirective where
  config : String
  inputs : List InputItem

/-- An included fragment document as consumed by `_process_includes`:
only the `inputs` key (the list of required input names) and the
`resources` key (a mapping) are read; `none` models an absent key. -/
structure Fragment where
  inputs : Option (List String)
  resources : Option (List (String × Yaml))

/-- The file system visible to `_process_includes`: a map from path to
the parsed fragment; `os.path.exists` is success of the lookup. -/
abbrev FileSys := List (String × Fragment)

/-- A top-level account document as consumed by `_process_includes`:
the optional `include` list, the optional `resources` mapping, and all
other top-level entries (carried through unchanged). -/
structure Document where
  includeList : Option (List IncludeDirective)
  resources : Option (List (String × Yaml))
  others : List (String × Yaml)

/-- `os.path.join(base, rel)` for POSIX paths as used here: an absolute
`rel` discards `base`; otherwise the two parts are joined with a single
separator. -/
def pathJoin (base rel : String) : String :=
  if rel.toList.head? = some '/' then rel
  else if base = "" then rel
  else if base.toList.getLast? = some '/' then base ++ rel
  else base ++ "/" ++ rel

/-- Building `input_vars` from an include directive's `inputs` list:
a dict item updates the bindings pair by pair, a bare name binds to
`None`/null. -/
def buildBindings (items : List InputItem) : List (String × Yaml) :=
  items.foldl
    (fun acc item =>
      match item with
      | .dict pairs => pairs.foldl (fun m p => setKey m p.1 p.2) acc
      | .bare name => setKey acc name Yaml.null)
    []

/-- The set difference `required - provided` of the source, as the list
of required names that are not bound, without duplicates (CPython's set
iteration order is not modelled; membership is what the claims state). -/
def missingOf (required : List String) (bindings : List (String × Yaml)) : List String :=
  (required.filter (fun n => (lookupKey bindings n).isNone)).dedup

/-- The per-directive part of the body of the `for include in
config['include']` loop in `_process_includes`: resolve the path, load
the fragment, validate its `inputs`/`resources` keys, build the
bindings, check the required inputs, and substitute variables in the
fragment's resources.  Everything except the final merge. -/
def resolveDirective (fs : FileSys) (basePath : String) (inc : IncludeDirective) :
    Except CfgError (List (String × Yaml)) :=
  match lookupKey fs (pathJoin basePath inc.config) with
  | none => .error (.includedFileNotFound (pathJoin basePath inc.config))
  | some frag =>
      match frag.inputs with
      | none => .error (.malformedFragment (pathJoin basePath inc.config) "inputs")
      | some required =>
          match frag.resources with
          | none => .error (.malformedFragment (pathJoin basePath inc.config) "resources")
          | some res =>
              match missingOf required (buildBindings inc.inputs) with
              | [] => processMap (buildBindings inc.inputs) res
              | m :: ms =>
                  .error (.missingInputs (pathJoin basePath inc.config) (m :: ms))

/-- The `for include in config['include']` loop of `_process_includes`:
each directive is resolved and its processed resources merged into the
accumulating `result['resources']`, strictly in list order. -/
def processIncludesLoop (fs : FileSys) (basePath : String) :
    List IncludeDirective → List (String × Yaml) → Except CfgError (List (String × Yaml))
  | [], acc => .ok acc
  | inc :: rest, acc =>
      match resolveDirective fs basePath inc with
      | .error e => .error e
      | .ok processed => processIncludesLoop fs basePath rest (mergeResources acc processed)

/-- `ConfigLoader._process_includes`: identity when the document has no
`include` key; otherwise work on a copy of the document, start from its
`resources` (an empty mapping if absent) and run the include loop. -/
def processIncludes (fs : FileSys) (config : Document) (basePath : String) :
    Except CfgError Document :=
  match config.includeList with
  | none => .ok config
  | some incs =>
      match processIncludesLoop fs basePath incs (config.resources.getD []) with
      | .error e => .error e
      | .ok res => .ok { config with resources := some res }

/-- Specification-side description of step 3 of the include-resolution
algorithm: resolve every directive independently, in list order,
collecting the processed resource trees (the first failure aborts). -/
def resolveAllDirectives (fs : FileSys) (basePath : String) :
    List IncludeDirective → Except CfgError (List (List (String × Yaml)))
  | [] => .ok []
  | inc :: rest =>
      match resolveDirective fs basePath inc with
      | .error e => .error e
      | .ok p =>
          match resolveAllDirectives fs basePath rest with
          | .error e => .error e
          | .ok ps => .ok (p :: ps)

/-- The value of the loop accumulator at the moment `_process_includes`
stops (normally or at the first failing directive).  Because
`result = config.copy()` is a shallow copy, when the input document
already has a `resources` mapping the accumulator is that very dict
object, mutated in place by `_merge_resources`. -/
def mergedAtStop (fs : FileSys) (basePath : String) :
    List IncludeDirective → List (String × Yaml) → List (String × Yaml)
  | [], acc => acc
  | inc :: rest, acc =>
      match resolveDirective fs basePath inc with
      | .error _ => acc
      | .ok processed => mergedAtStop fs basePath rest (mergeResources acc processed)

/-- The value of the caller's document after `_process_includes`
returns or raises, under CPython aliasing: the shallow `config.copy()`
shares the `resources` dict with the input, and `_merge_resources`
mutates that dict (and its nested containers) in place, so a
pre-existing `resources` mapping of the input ends up holding the
accumulator value at the moment the call stopped.  A document without a
`resources` key is untouched (the fresh empty dict is created on the
copy only). -/
def documentAfterCall (fs : FileSys) (config : Document) (basePath : String) : Document :=
  match config.includeList, config.resources with
  | some incs, some res =>
      { config with resources := some (mergedAtStop fs basePath incs res) }
  | _, _ => config

/-- The deep-merge rule of spec section 4.4, stated per key on the two
looked-up values, following the spec's words: a key absent in the
target keeps/gets the present value; two sequences concatenate with the
target's elements first and no de-duplication; two mappings merge
recursively; in every other case the source value overwrites the target
value. -/
def specMergeRule : Option Yaml → Option Yaml → Option Yaml
  | tv, none => tv
  | none, some sv => some sv
  | some (Yaml.list xs), some (Yaml.list ys) => some (Yaml.list (xs ++ ys))
  | some (Yaml.map tm), some (Yaml.map sm) => some (Yaml.map (mergeResources tm sm))
  | some _, some sv => some sv

/-- Occurrence of the text `pat` at position `i` of `s`: `pat` is a
prefix of what remains of `s` after dropping `i` characters. -/
def occursAt (pat s : List Char) (i : Nat) : Prop :=
  pat <+: s.drop i

/-- The text `t` occurs somewhere inside the string `s`. -/
abbrev containsStr (t s : String) : Prop :=
  t.toList <:+: s.toList

/-- A name that contains neither the placeholder lead character nor the
closing brace, so its placeholder cannot overlap another clean name's
placeholder occurrence. -/
abbrev cleanName (name : String) : Prop :=
  ∀ c ∈ name.toList, c ≠ dollar ∧ c ≠ rbrace

example : mergeResources [("a", Yaml.list [Yaml.s "x"])] [("a", Yaml.list [Yaml.s "y"])]
    = [("a", Yaml.list [Yaml.s "x", Yaml.s "y"])] := rfl

example : SubTag.resolve "app-$\x7benv\x7d" [("env", Yaml.s "prod")] = "app-prod" := rfl

example : RefTag.init "zones\x5b1\x5d" = ⟨"zones", some 1⟩ := rfl

example : RefTag.init "zones\x5b-1\x5d" = ⟨"zones", some (-1)⟩ := rfl

example : RefTag.init "name\x5babc\x5d" = ⟨"name\x5babc\x5d", none⟩ := rfl

example : RefTag.resolve ⟨"zones", some 1⟩
    [("zones", Yaml.list [Yaml.s "u1", Yaml.s "u2"])] = .ok (Yaml.s "u2") := rfl

example : RefTag.resolve ⟨"zones", some (-1)⟩
    [("zones", Yaml.list [Yaml.s "u1", Yaml.s "u2"])] = .ok (Yaml.s "u2") := rfl

example : RefTag.resolve ⟨"zones", some 2⟩
    [("zones", Yaml.list [Yaml.s "u1", Yaml.s "u2"])]
    = .error (.indexOutOfRange 2 "zones") := rfl

example : SubTag.resolve "$\x7ba\x7d" [("a", Yaml.s "$\x7bb\x7d"), ("b", Yaml.s "X")]
    = "X" := rfl

example : SubTag.resolve "$\x7bx\x7d\x7d" [("x\x7d", Yaml.s "Z")] = "Z" := rfl

example :
    processIncludes
      [("cfg/f.yml", ⟨some ["env"], some [("name", Yaml.sub "app-$\x7benv\x7d")]⟩)]
      ⟨some [⟨"f.yml", [.dict [("env", Yaml.s "prod")]]⟩], none, []⟩
      "cfg"
    = .ok ⟨some [⟨"f.yml", [.dict [("env", Yaml.s "prod")]]⟩],
        some [("name", Yaml.s "app-prod")], []⟩ := rfl

/-! ### Association-list (Python dict) lemmas -/

theorem lookupKey_setKey_self {α : Type} (m : List (String × α)) (k : String) (v : α) :
    lookupKey (setKey m k v) k = some v := by
  induction m with
  | nil => simp [setKey, lookupKey]
  | cons p rest ih =>
      obtain ⟨k1, v1⟩ := p
      by_cases hp : k1 = k
      · simp [setKey, lookupKey, hp]
      · simp [setKey, lookupKey, hp, ih]

theorem lookupKey_setKey_ne {α : Type} (m : List (String × α)) (k k' : String) (v : α)
    (h : k' ≠ k) : lookupKey (setKey m k v) k' = lookupKey m k' := by
  have hne : k ≠ k' := Ne.symm h
  induction m with
  | nil => simp [setKey, lookupKey, hne]
  | cons p rest ih =>
      obtain ⟨k1, v1⟩ := p
      by_cases hp : k1 = k
      · subst hp
        simp [setKey, lookupKey, hne]
      · simp [setKey, lookupKey, hp, ih]

/-! ### Deep-merge lemmas (claims C1 and C2) -/

theorem mergeResources_nil (t : List (String × Yaml)) : mergeResources t [] = t := by
  rw [mergeResources]

theorem mergeResources_cons (t : List (String × Yaml)) (k : String) (v : Yaml)
    (rest : List (String × Yaml)) :
    mergeResources t ((k, v) :: rest)
      = mergeResources (setKey t k (mergeValue (lookupKey t k) v)) rest := by
  rw [mergeResources]

theorem lookupKey_mergeResources_notMem (src : List (String × Yaml)) :
    ∀ (t : List (String × Yaml)) (k : String), k ∉ src.map Prod.fst →
      lookupKey (mergeResources t src) k = lookupKey t k := by
  induction src with
  | nil => intro t k _; rw [mergeResources_nil]
  | cons p rest ih =>
      intro t k hk
      obtain ⟨k1, v⟩ := p
      simp only [List.map_cons, List.mem_cons] at hk
      push_neg at hk
      rw [mergeResources_cons, ih _ k hk.2, lookupKey_setKey_ne _ _ _ _ hk.1]

theorem specMergeRule_some (tv : Option Yaml) (sv : Yaml) :
    specMergeRule tv (some sv) = some (mergeValue tv sv) := by
  match tv, sv with
  | none, sv => cases sv <;> rfl
  | some tw, sv => cases tw <;> cases sv <;> rfl

theorem specMergeRule_none (tv : Option Yaml) : specMergeRule tv none = tv := by
  match tv with
  | none => rfl
  | some tw => cases tw <;> rfl

/-- Lookup in the merge result is the spec's per-key rule applied to the
two lookups (for a source with the dict invariant of unique keys). -/
theorem lookupKey_mergeResources (src : List (String × Yaml)) :
    ∀ (t : List (String × Yaml)) (k : String), (src.map Prod.fst).Nodup →
      lookupKey (mergeResources t src) k
        = specMergeRule (lookupKey t k) (lookupKey src k) := by
  induction src with
  | nil =>
      intro t k _
      rw [mergeResources_nil]
      rw [show lookupKey ([] : List (String × Yaml)) k = none from rfl, specMergeRule_none]
  | cons p rest ih =>
      intro t k hnd
      obtain ⟨k1, v⟩ := p
      simp only [List.map_cons, List.nodup_cons] at hnd
      rw [mergeResources_cons]
      by_cases hk : k = k1
      · subst hk
        rw [lookupKey_mergeResources_notMem rest _ k hnd.1,
          lookupKey_setKey_self,
          show lookupKey ((k, v) :: rest) k = some v from by simp [lookupKey],
          specMergeRule_some]
      · have hk1 : k1 ≠ k := Ne.symm hk
        rw [ih _ k hnd.2, lookupKey_setKey_ne _ _ _ _ hk,
          show lookupKey ((k1, v) :: rest) k = lookupKey rest k from by
            simp [lookupKey, hk1]]

/-- C2: for every pair of mappings, deep merge applies exactly the
spec's rules key by key on the source (under the dict invariant that
the source's keys are unique): a key absent in the target is inserted
as-is, two sequences concatenate (target first, no de-duplication),
two mappings merge recursively, and in every other case — including a
container/scalar type mismatch — the source value overwrites the
target value; the function is total, so no error is ever raised. -/
theorem mergeResources_spec_rules (target source : List (String × Yaml)) (k : String)
    (hnd : (source.map Prod.fst).Nodup) :
    lookupKey (mergeResources target source) k
      = specMergeRule (lookupKey target k) (lookupKey source k) :=
  lookupKey_mergeResources source target k hnd

/-- Witness for C2 at a concrete input: merging `[b]` over `[a]` under
the same key yields the concatenation. -/
theorem mergeResources_spec_rules_witness :
    ((List.map Prod.fst [("k", Yaml.list [Yaml.s "b"])]).Nodup)
    ∧ lookupKey
        (mergeResources [("k", Yaml.list [Yaml.s "a"])] [("k", Yaml.list [Yaml.s "b"])]) "k"
        = some (Yaml.list [Yaml.s "a", Yaml.s "b"]) := by
  refine ⟨by decide, ?_⟩
  have h := mergeResources_spec_rules [("k", Yaml.list [Yaml.s "a"])]
    [("k", Yaml.list [Yaml.s "b"])] "k" (by decide)
  exact h.trans rfl

/-! ### The include loop as resolve-then-fold (claim C1) -/

theorem processIncludesLoop_eq_resolveAll (fs : FileSys) (basePath : String) :
    ∀ (incs : List IncludeDirective) (acc : List (String × Yaml)),
      processIncludesLoop fs basePath incs acc
        = Except.map (fun frs => frs.foldl mergeResources acc)
            (resolveAllDirectives fs basePath incs) := by
  intro incs
  induction incs with
  | nil => intro acc; rfl
  | cons inc rest ih =>
      intro acc
      cases hr : resolveDirective fs basePath inc with
      | error e =>
          simp [processIncludesLoop, resolveAllDirectives, hr, Except.map]
      | ok p =>
          simp only [processIncludesLoop, resolveAllDirectives, hr, ih]
          cases hall : resolveAllDirectives fs basePath rest with
          | error e => simp [Except.map]
          | ok ps => simp [Except.map, List.foldl_cons]

/-- C1: for a document whose include list is present, the result of
`_process_includes` is the original document with its resources
replaced by the fold, in list order, of the deep merge over the
independently resolved fragments, starting from the document's own
resources (empty if absent) — later includes merge on top of earlier
ones, and all merge on top of the original resources.  In particular
(second conjunct) two includes contributing one-element lists under the
same fresh key yield their concatenation in include order. -/
theorem processIncludes_merge_order (fs : FileSys) (config : Document) (basePath : String)
    (incs : List IncludeDirective) (hinc : config.includeList = some incs) :
    (processIncludes fs config basePath
      = Except.map
          (fun frs =>
            { config with
              resources := some (frs.foldl mergeResources (config.resources.getD [])) })
          (resolveAllDirectives fs basePath incs))
    ∧ ∀ (acc : List (String × Yaml)) (k : String) (a b : Yaml),
        lookupKey acc k = none →
        lookupKey
          (mergeResources (mergeResources acc [(k, Yaml.list [a])]) [(k, Yaml.list [b])]) k
          = some (Yaml.list [a, b]) := by
  constructor
  · simp only [processIncludes, hinc]
    rw [processIncludesLoop_eq_resolveAll]
    cases hall : resolveAllDirectives fs basePath incs with
    | error e => rfl
    | ok ps => rfl
  · intro acc k a b hacc
    have h1 : mergeResources acc [(k, Yaml.list [a])] = setKey acc k (Yaml.list [a]) := by
      rw [mergeResources_cons, hacc, mergeResources_nil]
      rfl
    have h2 : lookupKey (setKey acc k (Yaml.list [a])) k = some (Yaml.list [a]) :=
      lookupKey_setKey_self acc k (Yaml.list [a])
    rw [h1, mergeResources_cons, h2, mergeResources_nil]
    rw [show mergeValue (some (Yaml.list [a])) (Yaml.list [b]) = Yaml.list [a, b] from rfl]
    exact lookupKey_setKey_self _ _ _

/-- Witness for C1 at a concrete input: a document with two includes
whose fragments contribute `buckets: [a]` and `buckets: [b]` resolves
to `buckets: [a, b]`, and the generic two-list scenario instantiates. -/
theorem processIncludes_merge_order_witness :
    processIncludes
      [("cfg/x.yml", ⟨some [], some [("buckets", Yaml.list [Yaml.s "a"])]⟩),
       ("cfg/y.yml", ⟨some [], some [("buckets", Yaml.list [Yaml.s "b"])]⟩)]
      ⟨some [⟨"x.yml", []⟩, ⟨"y.yml", []⟩], none, []⟩ "cfg"
      = .ok ⟨some [⟨"x.yml", []⟩, ⟨"y.yml", []⟩],
          some [("buckets", Yaml.list [Yaml.s "a", Yaml.s "b"])], []⟩
    ∧ lookupKey
        (mergeResources (mergeResources [] [("buckets", Yaml.list [Yaml.s "a"])])
          [("buckets", Yaml.list [Yaml.s "b"])]) "buckets"
        = some (Yaml.list [Yaml.s "a", Yaml.s "b"]) := by
  have h := processIncludes_merge_order
    [("cfg/x.yml", ⟨some [], some [("buckets", Yaml.list [Yaml.s "a"])]⟩),
     ("cfg/y.yml", ⟨some [], some [("buckets", Yaml.list [Yaml.s "b"])]⟩)]
    ⟨some [⟨"x.yml", []⟩, ⟨"y.yml", []⟩], none, []⟩ "cfg"
    [⟨"x.yml", []⟩, ⟨"y.yml", []⟩] rfl
  exact ⟨h.1.trans rfl, h.2 [] "buckets" (Yaml.s "a") (Yaml.s "b") rfl⟩

/-- C9: for every included fragment lacking the `inputs` key or the
`resources` key, the include loop fails with `malformedFragment` for
that fragment; the result does not depend on the accumulated resources
nor on the remaining directives, so the failure happens before any
merge of that fragment (fail fast, no partial merge). -/
theorem malformedFragment_fail_fast (fs : FileSys) (basePath : String)
    (inc : IncludeDirective) (rest : List IncludeDirective)
    (acc : List (String × Yaml)) (frag : Fragment)
    (hfs : lookupKey fs (pathJoin basePath inc.config) = some frag) :
    (frag.inputs = none →
      processIncludesLoop fs basePath (inc :: rest) acc
        = .error (.malformedFragment (pathJoin basePath inc.config) "inputs"))
    ∧ (∀ req, frag.inputs = some req → frag.resources = none →
      processIncludesLoop fs basePath (inc :: rest) acc
        = .error (.malformedFragment (pathJoin basePath inc.config) "resources")) := by
  constructor
  · intro hin
    simp only [processIncludesLoop, resolveDirective, hfs, hin]
  · intro req hin hres
    simp only [processIncludesLoop, resolveDirective, hfs, hin, hres]

/-- Witness for C9 at a concrete input: a fragment without `inputs`
aborts the loop with `malformedFragment` even though resources were
already accumulated and another directive follows. -/
theorem malformedFragment_fail_fast_witness :
    processIncludesLoop [("cfg/f.yml", ⟨none, some []⟩)] "cfg"
        [⟨"f.yml", []⟩, ⟨"g.yml", []⟩] [("pre", Yaml.s "kept")]
      = .error (.malformedFragment "cfg/f.yml" "inputs") := by
  have h := malformedFragment_fail_fast [("cfg/f.yml", ⟨none, some []⟩)] "cfg"
    ⟨"f.yml", []⟩ [⟨"g.yml", []⟩] [("pre", Yaml.s "kept")] ⟨none, some []⟩ rfl
  exact h.1 rfl

/-! ### Missing-input validation (claim C3) -/

theorem pyListGet_ne_missingInputs (name : String) (xs : List Yaml) (idx : Int)
    (p : String) (ms : List String) :
    pyListGet name xs idx ≠ Except.error (CfgError.missingInputs p ms) := by
  unfold pyListGet
  split
  · split <;> simp
  · simp

theorem refTag_resolve_ne_missingInputs (r : RefTag) (bnd : List (String × Yaml))
    (p : String) (ms : List String) :
    RefTag.resolve r bnd ≠ Except.error (CfgError.missingInputs p ms) := by
  unfold RefTag.resolve
  split
  · simp
  · split
    · simp
    · split
      · exact pyListGet_ne_missingInputs _ _ _ p ms
      · simp

mutual
theorem processValue_ne_missingInputs (bindings : List (String × Yaml)) :
    ∀ (v : Yaml) (p : String) (ms : List String),
      processValue bindings v ≠ Except.error (CfgError.missingInputs p ms)
  | .s str, p, ms => by simp [processValue]
  | .i n, p, ms => by simp [processValue]
  | .b bb, p, ms => by simp [processValue]
  | .null, p, ms => by simp [processValue]
  | .sub t, p, ms => by simp [processValue]
  | .ref n idx, p, ms => by
      simpa [processValue] using refTag_resolve_ne_missingInputs ⟨n, idx⟩ bindings p ms
  | .map m, p, ms => by
      cases hm : processMap bindings m with
      | error e =>
          have h := processMap_ne_missingInputs bindings m p ms
          rw [hm] at h
          simpa [processValue, hm] using h
      | ok m' => simp [processValue, hm]
  | .list l, p, ms => by
      cases hl : processList bindings l with
      | error e =>
          have h := processList_ne_missingInputs bindings l p ms
          rw [hl] at h
          simpa [processValue, hl] using h
      | ok l' => simp [processValue, hl]

theorem processMap_ne_missingInputs (bindings : List (String × Yaml)) :
    ∀ (m : List (String × Yaml)) (p : String) (ms : List String),
      processMap bindings m ≠ Except.error (CfgError.missingInputs p ms)
  | [], p, ms => by simp [processMap]
  | (k, v) :: rest, p, ms => by
      cases hv : processValue bindings v with
      | error e =>
          have h := processValue_ne_missingInputs bindings v p ms
          rw [hv] at h
          simpa [processMap, hv] using h
      | ok v' =>
          cases hrest : processMap bindings rest with
          | error e =>
              have h := processMap_ne_missingInputs bindings rest p ms
              rw [hrest] at h
              simpa [processMap, hv, hrest] using h
          | ok rest' => simp [processMap, hv, hrest]

theorem processList_ne_missingInputs (bindings : List (String × Yaml)) :
    ∀ (l : List Yaml) (p : String) (ms : List String),
      processList bindings l ≠ Except.error (CfgError.missingInputs p ms)
  | [], p, ms => by simp [processList]
  | v :: rest, p, ms => by
      cases hv : processValue bindings v with
      | error e =>
          have h := processValue_ne_missingInputs bindings v p ms
          rw [hv] at h
          simpa [processList, hv] using h
      | ok v' =>
          cases hrest : processList bindings rest with
          | error e =>
              have h := processList_ne_missingInputs bindings rest p ms
              rw [hrest] at h
              simpa [processList, hv, hrest] using h
          | ok rest' => simp [processList, hv, hrest]
end

theorem mem_missingOf (required : List String) (bnd : List (String × Yaml)) (n : String) :
    n ∈ missingOf required bnd ↔ n ∈ required ∧ lookupKey bnd n = none := by
  simp [missingOf, List.mem_dedup, List.mem_filter, Option.isNone_iff_eq_none]

/-- C3: for a directive whose fragment is found and well-formed,
resolution fails with `missingInputs` exactly when some required input
name is unbound; the reported list enumerates exactly the missing
names; a fragment with no declared inputs never produces
`missingInputs`; and when every required input is bound, substitution
runs on the full binding map built from all provided inputs, so extra
provided-but-unrequired inputs cause no error and remain usable. -/
theorem missingInputs_exactly (fs : FileSys) (basePath : String) (inc : IncludeDirective)
    (frag : Fragment) (required : List String) (res : List (String × Yaml))
    (hfs : lookupKey fs (pathJoin basePath inc.config) = some frag)
    (hin : frag.inputs = some required)
    (hres : frag.resources = some res) :
    ((∃ p ms, resolveDirective fs basePath inc
        = Except.error (CfgError.missingInputs p ms))
      ↔ ∃ n ∈ required, lookupKey (buildBindings inc.inputs) n = none)
    ∧ (∀ p ms, resolveDirective fs basePath inc
          = Except.error (CfgError.missingInputs p ms) →
        p = pathJoin basePath inc.config
        ∧ ∀ n, n ∈ ms ↔ n ∈ required ∧ lookupKey (buildBindings inc.inputs) n = none)
    ∧ (required = [] →
        ∀ p ms, resolveDirective fs basePath inc
          ≠ Except.error (CfgError.missingInputs p ms))
    ∧ ((∀ n ∈ required, lookupKey (buildBindings inc.inputs) n ≠ none) →
        resolveDirective fs basePath inc
          = processMap (buildBindings inc.inputs) res) := by
  cases hmiss : missingOf required (buildBindings inc.inputs) with
  | nil =>
      have hrd : resolveDirective fs basePath inc
          = processMap (buildBindings inc.inputs) res := by
        simp only [resolveDirective, hfs, hin, hres, hmiss]
      have hforall : ∀ n ∈ required, lookupKey (buildBindings inc.inputs) n ≠ none := by
        intro n hn hnone
        have hmem : n ∈ missingOf required (buildBindings inc.inputs) :=
          (mem_missingOf _ _ _).mpr ⟨hn, hnone⟩
        rw [hmiss] at hmem
        exact absurd hmem (List.not_mem_nil n)
      refine ⟨⟨?_, ?_⟩, ?_, ?_, ?_⟩
      · rintro ⟨p, ms, hp⟩
        rw [hrd] at hp
        exact absurd hp (processMap_ne_missingInputs _ _ _ _)
      · rintro ⟨n, hn, hnone⟩
        exact absurd hnone (hforall n hn)
      · intro p ms hp
        rw [hrd] at hp
        exact absurd hp (processMap_ne_missingInputs _ _ _ _)
      · intro _ p ms hp
        rw [hrd] at hp
        exact absurd hp (processMap_ne_missingInputs _ _ _ _)
      · intro _
        exact hrd
  | cons m ms' =>
      have hrd : resolveDirective fs basePath inc
          = Except.error
              (CfgError.missingInputs (pathJoin basePath inc.config) (m :: ms')) := by
        simp only [resolveDirective, hfs, hin, hres, hmiss]
      have hm : m ∈ missingOf required (buildBindings inc.inputs) := by
        rw [hmiss]
        exact List.mem_cons_self m ms'
      obtain ⟨hmr, hmn⟩ := (mem_missingOf _ _ _).mp hm
      refine ⟨⟨?_, ?_⟩, ?_, ?_, ?_⟩
      · intro _
        exact ⟨m, hmr, hmn⟩
      · intro _
        exact ⟨_, _, hrd⟩
      · intro p ms hp
        rw [hrd] at hp
        simp only [Except.error.injEq, CfgError.missingInputs.injEq] at hp
        refine ⟨hp.1.symm, ?_⟩
        intro n
        have hiff := mem_missingOf required (buildBindings inc.inputs) n
        rw [hmiss] at hiff
        rw [← hp.2]
        exact hiff
      · intro hreq p ms _
        rw [hreq] at hmiss
        simp [missingOf] at hmiss
      · intro hforall
        exact absurd hmn (hforall m hmr)

/-- Witness for C3 at concrete inputs: a fragment requiring `region`
with only `other` provided fails with `missingInputs` naming exactly
`region`, and a fragment with no required inputs accepts an extra
provided input and substitutes with it. -/
theorem missingInputs_exactly_witness :
    (∃ p ms, resolveDirective [("c/f.yml", ⟨some ["region"], some []⟩)] "c"
        ⟨"f.yml", [.dict [("other", Yaml.s "x")]]⟩
        = Except.error (CfgError.missingInputs p ms))
    ∧ resolveDirective
        [("c/g.yml", ⟨some [], some [("r", Yaml.ref "extra" none)]⟩)] "c"
        ⟨"g.yml", [.dict [("extra", Yaml.s "v")]]⟩
        = Except.ok [("r", Yaml.s "v")] := by
  constructor
  · exact (missingInputs_exactly [("c/f.yml", ⟨some ["region"], some []⟩)] "c"
      ⟨"f.yml", [.dict [("other", Yaml.s "x")]]⟩ ⟨some ["region"], some []⟩
      ["region"] [] rfl rfl rfl).1.mpr ⟨"region", by simp, rfl⟩
  · have h := (missingInputs_exactly
      [("c/g.yml", ⟨some [], some [("r", Yaml.ref "extra" none)]⟩)] "c"
      ⟨"g.yml", [.dict [("extra", Yaml.s "v")]]⟩
      ⟨some [], some [("r", Yaml.ref "extra" none)]⟩ []
      [("r", Yaml.ref "extra" none)] rfl rfl rfl).2.2.2 (by simp)
    exact h.trans rfl

/-! ### Reference resolution (claims C4, C8, C10) -/

theorem pyListGet_ne_refNotFound (name : String) (xs : List Yaml) (idx : Int) (n : String) :
    pyListGet name xs idx ≠ Except.error (CfgError.refNotFound n) := by
  unfold pyListGet
  split
  · split <;> simp
  · simp

theorem pyListGet_nonneg (name : String) (xs : List Yaml) (i : Int) (hi : 0 ≤ i) :
    ((xs.length : Int) ≤ i →
        pyListGet name xs i = Except.error (CfgError.indexOutOfRange i name))
    ∧ (i < (xs.length : Int) →
        i.toNat < xs.length
        ∧ pyListGet name xs i = Except.ok (xs.getD i.toNat Yaml.null)) := by
  have hpy : pyIdx xs.length i = i := by
    unfold pyIdx
    rw [if_neg (by omega)]
  constructor
  · intro hle
    have hnone : xs[i.toNat]? = none := List.getElem?_eq_none (by omega)
    unfold pyListGet
    rw [hpy, if_pos hi, hnone]
  · intro hlt
    have htn : i.toNat < xs.length := by omega
    have hsome : xs[i.toNat]? = some (xs.getD i.toNat Yaml.null) := by
      rw [List.getElem?_eq_getElem htn, List.getD_eq_getElem?_getD,
        List.getElem?_eq_getElem htn]
      rfl
    refine ⟨htn, ?_⟩
    unfold pyListGet
    rw [hpy, if_pos hi, hsome]

theorem pyListGet_neg (name : String) (xs : List Yaml) (i : Int) (hi : i < 0) :
    (i + (xs.length : Int) < 0 →
        pyListGet name xs i = Except.error (CfgError.indexOutOfRange i name))
    ∧ (0 ≤ i + (xs.length : Int) →
        (i + (xs.length : Int)).toNat < xs.length
        ∧ pyListGet name xs i
            = Except.ok (xs.getD (i + (xs.length : Int)).toNat Yaml.null)) := by
  have hpy : pyIdx xs.length i = i + (xs.length : Int) := by
    unfold pyIdx
    rw [if_pos hi]
  constructor
  · intro hneg
    unfold pyListGet
    rw [hpy, if_neg (by omega)]
  · intro hpos
    have htn : (i + (xs.length : Int)).toNat < xs.length := by omega
    have hsome : xs[(i + (xs.length : Int)).toNat]?
        = some (xs.getD (i + (xs.length : Int)).toNat Yaml.null) := by
      rw [List.getElem?_eq_getElem htn, List.getD_eq_getElem?_getD,
        List.getElem?_eq_getElem htn]
      rfl
    refine ⟨htn, ?_⟩
    unfold pyListGet
    rw [hpy, if_pos hpos, hsome]

/-- C4: `RefTag.resolve` raises `refNotFound` exactly when the name is
not a key of the bindings (never returning null or a default); a bound
un-indexed reference returns the bound value; an indexed reference to a
bound non-sequence raises `typeMismatch`; and for a non-negative index
`i` into a bound sequence (the only case the spec's C8 invariant
allows), it raises `indexOutOfRange` exactly when `i ≥ length` — in
particular `i = length` always fails — and returns the element at
position `i` unchanged when `i < length` — in particular
`i = length - 1` succeeds. -/
theorem refTag_resolve_spec (r : RefTag) (bnd : List (String × Yaml)) :
    ((∃ n, RefTag.resolve r bnd = Except.error (CfgError.refNotFound n))
        ↔ lookupKey bnd r.value = none)
    ∧ (∀ v, lookupKey bnd r.value = some v → r.index = none →
        RefTag.resolve r bnd = Except.ok v)
    ∧ (∀ v i, lookupKey bnd r.value = some v → r.index = some i →
        (∀ xs, v ≠ Yaml.list xs) →
        RefTag.resolve r bnd = Except.error (CfgError.typeMismatch r.value))
    ∧ (∀ xs i, lookupKey bnd r.value = some (Yaml.list xs) → r.index = some i → 0 ≤ i →
        (((xs.length : Int) ≤ i →
            RefTag.resolve r bnd = Except.error (CfgError.indexOutOfRange i r.value))
        ∧ (i < (xs.length : Int) →
            i.toNat < xs.length
            ∧ RefTag.resolve r bnd = Except.ok (xs.getD i.toNat Yaml.null)))) := by
  refine ⟨⟨?_, ?_⟩, ?_, ?_, ?_⟩
  · rintro ⟨n, hp⟩
    cases hl : lookupKey bnd r.value with
    | none => rfl
    | some v =>
        exfalso
        revert hp
        simp only [RefTag.resolve, hl]
        cases r.index with
        | none => simp
        | some idx => cases v <;> simp [pyListGet_ne_refNotFound]
  · intro hl
    exact ⟨r.value, by simp [RefTag.resolve, hl]⟩
  · intro v hv hidx
    simp [RefTag.resolve, hv, hidx]
  · intro v i hv hidx hne
    cases v <;> first
      | exact absurd rfl (hne _)
      | simp [RefTag.resolve, hv, hidx]
  · intro xs i hv hidx hi
    simp only [RefTag.resolve, hv, hidx]
    exact pyListGet_nonneg r.value xs i hi

/-- Witness for C4 at concrete inputs: on a two-element sequence, index
`length - 1 = 1` returns the last element and index `length = 2` raises
`indexOutOfRange`. -/
theorem refTag_resolve_spec_witness :
    RefTag.resolve ⟨"zones", some 1⟩ [("zones", Yaml.list [Yaml.s "u1", Yaml.s "u2"])]
      = Except.ok (Yaml.s "u2")
    ∧ RefTag.resolve ⟨"zones", some 2⟩ [("zones", Yaml.list [Yaml.s "u1", Yaml.s "u2"])]
      = Except.error (CfgError.indexOutOfRange 2 "zones") := by
  constructor
  · have h := (refTag_resolve_spec ⟨"zones", some 1⟩
      [("zones", Yaml.list [Yaml.s "u1", Yaml.s "u2"])]).2.2.2
      [Yaml.s "u1", Yaml.s "u2"] 1 rfl rfl (by decide)
    exact (h.2 (by decide)).2.trans rfl
  · have h := (refTag_resolve_spec ⟨"zones", some 2⟩
      [("zones", Yaml.list [Yaml.s "u1", Yaml.s "u2"])]).2.2.2
      [Yaml.s "u1", Yaml.s "u2"] 2 rfl rfl (by decide)
    exact h.1 (by decide)

theorem contains_iff_mem (l : List Char) (c : Char) : l.contains c = true ↔ c ∈ l := by
  rw [show l.contains c = List.elem c l from rfl]
  simp [List.elem_eq_mem]

theorem contains_false_iff (l : List Char) (c : Char) : l.contains c = false ↔ c ∉ l := by
  rw [show l.contains c = List.elem c l from rfl]
  simp [List.elem_eq_mem]

theorem dropWhile_eq_self_of_all {α : Type} (p : α → Bool) :
    ∀ (l : List α), (∀ c ∈ l, p c = false) → l.dropWhile p = l
  | [], _ => rfl
  | a :: l, h => by
      have ha : p a = false := h a (List.mem_cons_self a l)
      simp [List.dropWhile_cons, ha]

theorem trimWs_eq_self (l : List Char) (h : ∀ c ∈ l, c.isWhitespace = false) :
    trimWs l = l := by
  unfold trimWs
  rw [dropWhile_eq_self_of_all _ l h,
    dropWhile_eq_self_of_all _ l.reverse (fun c hc => h c (List.mem_reverse.mp hc)),
    List.reverse_reverse]

theorem isWhitespace_eq_false_of_isDigit (c : Char) (h : c.isDigit = true) :
    c.isWhitespace = false := by
  cases hw : c.isWhitespace
  · rfl
  · exfalso
    have hc : ((c = ' ' ∨ c = '\t') ∨ c = '\r') ∨ c = '\n' := by
      simpa [Char.isWhitespace] using hw
    rcases hc with ((h1 | h1) | h1) | h1 <;> (subst h1; exact absurd h (by decide))

theorem pyInt?_neg_digits (ds : List Char) (hne : ds ≠ []) (hd : ds.all Char.isDigit = true) :
    pyInt? ('-' :: ds) = some (-(digitsVal ds : Int)) := by
  have hnw : ∀ c ∈ '-' :: ds, c.isWhitespace = false := by
    intro c hc
    rcases List.mem_cons.mp hc with h1 | h1
    · subst h1; decide
    · exact isWhitespace_eq_false_of_isDigit c (List.all_eq_true.mp hd c h1)
  unfold pyInt?
  rw [trimWs_eq_self _ hnw]
  simp [hne, hd]

theorem splitFirst_append (c : Char) :
    ∀ (l r : List Char), c ∉ l → splitFirst c (l ++ c :: r) = (l, r)
  | [], r, _ => by simp [splitFirst]
  | x :: l, r, h => by
      have hx : x ≠ c := by
        intro hh
        exact h (by rw [hh]; exact List.mem_cons_self c l)
      have hrec := splitFirst_append c l r (fun hm => h (List.mem_cons_of_mem x hm))
      simp [splitFirst, hx, hrec]

/-- C8 counterexample: `RefTag.__init__` parses `zones[-1]` into a
reference with the negative index `-1`, and `RefTag.resolve` accepts it
(returning the last element by Python end-relative indexing), so a
`VariableReference` with `index ≥ 0` is not an invariant of the code. -/
theorem refTag_negative_index_counterexample :
    RefTag.init "zones\x5b-1\x5d" = ⟨"zones", some (-1)⟩
    ∧ RefTag.resolve ⟨"zones", some (-1)⟩
        [("zones", Yaml.list [Yaml.s "a", Yaml.s "b"])] = Except.ok (Yaml.s "b")
    ∧ (-1 : Int) < 0 := ⟨rfl, rfl, by decide⟩

/-- C8 amended: a parsed `!Ref name[i]` carries exactly the integer the
bracketed text parses to, with no sign validation — a literal
`name[-d]` (digits `d`) yields index `-d` — and resolution accepts a
negative index `i` whenever `i + length ≥ 0`, returning the element at
position `i + length` (Python end-relative indexing), and raises
`indexOutOfRange` when `i + length < 0`. -/
theorem refTag_negative_index_semantics :
    (∀ (name : String) (ds : List Char),
      name.toList.contains lbk = false → ds ≠ [] → ds.all Char.isDigit = true →
      RefTag.init (name ++ "\x5b-" ++ String.mk ds ++ "\x5d")
        = ⟨name, some (-(digitsVal ds : Int))⟩)
    ∧ (∀ (r : RefTag) (bnd : List (String × Yaml)) (xs : List Yaml) (i : Int),
        lookupKey bnd r.value = some (Yaml.list xs) → r.index = some i → i < 0 →
        ((i + (xs.length : Int) < 0 →
            RefTag.resolve r bnd = Except.error (CfgError.indexOutOfRange i r.value))
        ∧ (0 ≤ i + (xs.length : Int) →
            (i + (xs.length : Int)).toNat < xs.length
            ∧ RefTag.resolve r bnd
                = Except.ok (xs.getD (i + (xs.length : Int)).toNat Yaml.null)))) := by
  constructor
  · intro name ds hcont hne hd
    have hlist : (name ++ "\x5b-" ++ String.mk ds ++ "\x5d").toList
        = ((name.toList ++ [lbk, '-']) ++ ds) ++ [rbk] := rfl
    have hcontains : (name ++ "\x5b-" ++ String.mk ds ++ "\x5d").toList.contains lbk
        = true := by
      refine (contains_iff_mem _ _).mpr ?_
      rw [hlist]
      simp
    have hlast : (name ++ "\x5b-" ++ String.mk ds ++ "\x5d").toList.getLast?
        = some rbk := by
      rw [hlist]
      exact List.getLast?_concat _
    have hnotin : lbk ∉ name.toList := (contains_false_iff _ _).mp hcont
    have hsplit : splitFirst lbk ((name ++ "\x5b-" ++ String.mk ds ++ "\x5d").toList)
        = (name.toList, '-' :: (ds ++ [rbk])) := by
      rw [hlist,
        show ((name.toList ++ [lbk, '-']) ++ ds) ++ [rbk]
          = name.toList ++ lbk :: ('-' :: (ds ++ [rbk])) from by simp]
      exact splitFirst_append lbk _ _ hnotin
    have hdrop : ('-' :: (ds ++ [rbk])).dropLast = '-' :: ds := by
      rw [show '-' :: (ds ++ [rbk]) = ('-' :: ds) ++ [rbk] from by simp]
      exact List.dropLast_concat
    unfold RefTag.init
    rw [if_pos ⟨hcontains, hlast⟩, hsplit]
    dsimp only
    rw [hdrop, pyInt?_neg_digits ds hne hd]
    rfl
  · intro r bnd xs i hv hidx hi
    simp only [RefTag.resolve, hv, hidx]
    exact pyListGet_neg r.value xs i hi

/-- Witness for the amended C8 at concrete inputs. -/
theorem refTag_negative_index_semantics_witness :
    RefTag.init ("zones" ++ "\x5b-" ++ String.mk ['1'] ++ "\x5d")
      = ⟨"zones", some (-(digitsVal ['1'] : Int))⟩
    ∧ RefTag.resolve ⟨"zones", some (-1)⟩
        [("zones", Yaml.list [Yaml.s "a", Yaml.s "b"])] = Except.ok (Yaml.s "b") := by
  constructor
  · exact refTag_negative_index_semantics.1 "zones" ['1'] rfl (by decide) (by decide)
  · have h := (refTag_negative_index_semantics.2 ⟨"zones", some (-1)⟩
      [("zones", Yaml.list [Yaml.s "a", Yaml.s "b"])]
      [Yaml.s "a", Yaml.s "b"] (-1) rfl rfl (by decide)).2 (by decide)
    exact h.2.trans rfl

/-- C10: when the bracketed suffix of a `!Ref` literal does not parse
as an integer, the entire literal text including the brackets becomes
the variable name with no index, and resolution looks that whole string
up in the bindings with no list indexing applied (even when the bound
value is a sequence). -/
theorem refTag_invalid_index_whole_name (value : String)
    (hbk : value.toList.contains lbk = true)
    (hlast : value.toList.getLast? = some rbk)
    (hint : pyInt? (splitFirst lbk value.toList).2.dropLast = none) :
    RefTag.init value = ⟨value, none⟩
    ∧ (∀ bnd v, lookupKey bnd value = some v →
        RefTag.resolve ⟨value, none⟩ bnd = Except.ok v)
    ∧ (∀ bnd, lookupKey bnd value = none →
        RefTag.resolve ⟨value, none⟩ bnd
          = Except.error (CfgError.refNotFound value)) := by
  refine ⟨?_, ?_, ?_⟩
  · unfold RefTag.init
    rw [if_pos ⟨hbk, hlast⟩, hint]
  · intro bnd v hv
    simp [RefTag.resolve, hv]
  · intro bnd hv
    simp [RefTag.resolve, hv]

/-- Witness for C10 at a concrete input: `!Ref name[abc]` resolves the
whole literal `name[abc]`, returning a bound sequence un-indexed. -/
theorem refTag_invalid_index_whole_name_witness :
    RefTag.init "name\x5babc\x5d" = ⟨"name\x5babc\x5d", none⟩
    ∧ RefTag.resolve ⟨"name\x5babc\x5d", none⟩
        [("name\x5babc\x5d", Yaml.list [Yaml.s "w"])]
      = Except.ok (Yaml.list [Yaml.s "w"]) := by
  have h := refTag_invalid_index_whole_name "name\x5babc\x5d" rfl rfl rfl
  exact ⟨h.1, h.2.1 _ _ rfl⟩

/-- C7 (shallow-copy aliasing at a failing input): for a document that
already has a `resources` mapping and one successfully merged include,
the caller's document after `_process_includes` holds the merged
resources (the shallow `config.copy()` shares the `resources` dict,
which `_merge_resources` mutates in place), so the input document is
not unchanged; the successful return value coincides with the mutated
input. -/
theorem processIncludes_mutates_input :
    (documentAfterCall
        [("configs/f.yml", ⟨some [], some [("buckets", Yaml.list [Yaml.s "b"])]⟩)]
        ⟨some [⟨"f.yml", []⟩], some [("buckets", Yaml.list [Yaml.s "a"])], []⟩
        "configs").resources
      = some [("buckets", Yaml.list [Yaml.s "a", Yaml.s "b"])]
    ∧ (⟨some [⟨"f.yml", []⟩], some [("buckets", Yaml.list [Yaml.s "a"])],
        []⟩ : Document).resources
      = some [("buckets", Yaml.list [Yaml.s "a"])]
    ∧ documentAfterCall
        [("configs/f.yml", ⟨some [], some [("buckets", Yaml.list [Yaml.s "b"])]⟩)]
        ⟨some [⟨"f.yml", []⟩], some [("buckets", Yaml.list [Yaml.s "a"])], []⟩
        "configs"
      ≠ ⟨some [⟨"f.yml", []⟩], some [("buckets", Yaml.list [Yaml.s "a"])], []⟩
    ∧ processIncludes
        [("configs/f.yml", ⟨some [], some [("buckets", Yaml.list [Yaml.s "b"])]⟩)]
        ⟨some [⟨"f.yml", []⟩], some [("buckets", Yaml.list [Yaml.s "a"])], []⟩
        "configs"
      = Except.ok
          (documentAfterCall
            [("configs/f.yml", ⟨some [], some [("buckets", Yaml.list [Yaml.s "b"])]⟩)]
            ⟨some [⟨"f.yml", []⟩], some [("buckets", Yaml.list [Yaml.s "a"])], []⟩
            "configs") := by
  refine ⟨rfl, rfl, ?_, rfl⟩
  intro h
  have h3 := Option.some.inj (congrArg Document.resources h)
  have h4 : ([("buckets", Yaml.list [Yaml.s "a", Yaml.s "b"])] : List (String × Yaml))
      = [("buckets", Yaml.list [Yaml.s "a"])] := h3
  injection h4 with hhead _
  have h5 := congrArg Prod.snd hhead
  injection h5 with h6
  injection h6 with _ h8
  exact List.cons_ne_nil _ _ h8

/-! ### Occurrence bookkeeping for `str.replace` (claims C5 and C6) -/

theorem occursAt_cons (pat s : List Char) (c : Char) (i : Nat) (h : occursAt pat s i) :
    occursAt pat (c :: s) (i + 1) := by
  unfold occursAt at *
  rwa [List.drop_succ_cons]

theorem occursAt_of_cons (pat s : List Char) (c : Char) (i : Nat)
    (h : occursAt pat (c :: s) (i + 1)) : occursAt pat s i := by
  unfold occursAt at *
  rwa [List.drop_succ_cons] at h

theorem occursAt_drop (pat s : List Char) (d i : Nat) (h : occursAt pat (s.drop d) i) :
    occursAt pat s (d + i) := by
  unfold occursAt at *
  rwa [List.drop_drop] at h

theorem occursAt_drop_rev (pat s : List Char) (d j : Nat) (hd : d ≤ j)
    (h : occursAt pat s j) : occursAt pat (s.drop d) (j - d) := by
  unfold occursAt at *
  rw [List.drop_drop, Nat.add_sub_cancel' hd]
  exact h

theorem occursAt_append_left (pat rep z : List Char) (j : Nat) (h : occursAt pat z j) :
    occursAt pat (rep ++ z) (rep.length + j) := by
  unfold occursAt at *
  rw [← List.drop_drop, List.drop_left]
  exact h

theorem infix_iff_occursAt (t s : List Char) : t <:+: s ↔ ∃ i, occursAt t s i := by
  constructor
  · rintro ⟨u, v, huv⟩
    refine ⟨u.length, ?_⟩
    unfold occursAt
    rw [← huv, List.append_assoc, List.drop_left]
    exact List.prefix_append t v
  · rintro ⟨i, hi⟩
    obtain ⟨v, hv⟩ := hi
    exact ⟨s.take i, v, by rw [List.append_assoc, hv, List.take_append_drop]⟩

theorem phS_toList (n : String) :
    (phS n).toList = (dollar :: lbrace :: n.toList) ++ [rbrace] := rfl

theorem phS_head_append (x : String) (w : List Char) :
    ((phS x).toList ++ w).head? = some dollar := rfl

theorem phS_tail_no_dollar (n : String) (hc : cleanName n) :
    ∀ c ∈ (lbrace :: n.toList) ++ [rbrace], c ≠ dollar := by
  intro c hcmem
  rcases List.mem_append.mp hcmem with h1 | h1
  · rcases List.mem_cons.mp h1 with h2 | h2
    · subst h2; decide
    · exact (hc c h2).1
  · rcases List.mem_cons.mp h1 with h2 | h2
    · subst h2; decide
    · exact absurd h2 (List.not_mem_nil c)

theorem append_singleton_prefix_eq (x : Char) :
    ∀ (a b : List Char), x ∉ a → x ∉ b → a ++ [x] <+: b ++ [x] → a = b
  | [], b, _, hb, hpre => by
      cases b with
      | nil => rfl
      | cons d b' =>
          exfalso
          rw [List.nil_append, List.cons_append] at hpre
          have hxd := ( List.cons_prefix_cons.mp hpre).1
          exact hb (by rw [hxd]; exact List.mem_cons_self d b')
  | a₀ :: a', b, ha, hb, hpre => by
      cases b with
      | nil =>
          exfalso
          rw [List.cons_append, List.nil_append] at hpre
          have hxd := ( List.cons_prefix_cons.mp hpre).1
          exact ha (by rw [← hxd]; exact List.mem_cons_self a₀ a')
      | cons b₀ b' =>
          rw [List.cons_append, List.cons_append] at hpre
          obtain ⟨heq, hpre'⟩ := List.cons_prefix_cons.mp hpre
          have ha' : x ∉ a' := fun hm => ha (List.mem_cons_of_mem a₀ hm)
          have hb' : x ∉ b' := fun hm => hb (List.mem_cons_of_mem b₀ hm)
          rw [heq, append_singleton_prefix_eq x a' b' ha' hb' hpre']

theorem ph_prefix_eq (n x : String) (hn : cleanName n) (hx : cleanName x)
    (hpre : (phS n).toList <+: (phS x).toList) : n = x := by
  rw [phS_toList, phS_toList] at hpre
  have ha : rbrace ∉ dollar :: lbrace :: n.toList := by
    intro hm
    rcases List.mem_cons.mp hm with h1 | h1
    · exact absurd h1 (by decide)
    · rcases List.mem_cons.mp h1 with h2 | h2
      · exact absurd h2 (by decide)
      · exact (hn rbrace h2).2 rfl
  have hb : rbrace ∉ dollar :: lbrace :: x.toList := by
    intro hm
    rcases List.mem_cons.mp hm with h1 | h1
    · exact absurd h1 (by decide)
    · rcases List.mem_cons.mp h1 with h2 | h2
      · exact absurd h2 (by decide)
      · exact (hx rbrace h2).2 rfl
  have heq := append_singleton_prefix_eq rbrace _ _ ha hb hpre
  have h2 : n.toList = x.toList := by
    injection heq with _ h3
    injection h3 with _ h4
  cases n with
  | mk nd =>
      cases x with
      | mk xd =>
          have h5 : nd = xd := h2
          rw [h5]

theorem ph_no_overlap (n x : String) (hn : cleanName n) (hx : cleanName x) (hnx : n ≠ x) :
    ∀ (s : List Char) (i j : Nat),
      occursAt (phS n).toList s i → occursAt (phS x).toList s j →
      i + (phS n).toList.length ≤ j ∨ j + (phS x).toList.length ≤ i := by
  intro s i j hi hj
  by_contra hcon
  push_neg at hcon
  obtain ⟨h1, h2⟩ := hcon
  rcases Nat.lt_trichotomy i j with hij | hij | hij
  · have hd1 : 1 ≤ j - i := by omega
    have hd2 : j - i < (phS n).toList.length := by omega
    obtain ⟨u, hu⟩ := hi
    have hocc := occursAt_drop_rev (phS x).toList s i j (by omega) hj
    obtain ⟨w, hw⟩ := hocc
    rw [← hu, List.drop_append_of_le_length (by omega)] at hw
    cases hdd : (phS n).toList.drop (j - i) with
    | nil =>
        have hL := congrArg List.length hdd
        simp only [List.length_drop, List.length_nil] at hL
        omega
    | cons c0 crest =>
        rw [hdd] at hw
        have hc0 : c0 = dollar := by
          have hh := congrArg List.head? hw
          rw [phS_head_append, List.cons_append, List.head?_cons] at hh
          exact (Option.some.inj hh).symm
        have hmem : c0 ∈ (phS n).toList.drop 1 := by
          have hmm : c0 ∈ (phS n).toList.drop (j - i) := by
            rw [hdd]; exact List.mem_cons_self _ _
          exact List.drop_subset_drop_left _ hd1 hmm
        rw [show (phS n).toList.drop 1 = (lbrace :: n.toList) ++ [rbrace] from rfl] at hmem
        exact absurd hc0 (phS_tail_no_dollar n hn c0 hmem)
  · subst hij
    rcases List.prefix_or_prefix_of_prefix hi hj with hp | hp
    · exact absurd (ph_prefix_eq n x hn hx hp) hnx
    · exact absurd (ph_prefix_eq x n hx hn hp).symm hnx
  · have hd1 : 1 ≤ i - j := by omega
    have hd2 : i - j < (phS x).toList.length := by omega
    obtain ⟨u, hu⟩ := hj
    have hocc := occursAt_drop_rev (phS n).toList s j i (by omega) hi
    obtain ⟨w, hw⟩ := hocc
    rw [← hu, List.drop_append_of_le_length (by omega)] at hw
    cases hdd : (phS x).toList.drop (i - j) with
    | nil =>
        have hL := congrArg List.length hdd
        simp only [List.length_drop, List.length_nil] at hL
        omega
    | cons c0 crest =>
        rw [hdd] at hw
        have hc0 : c0 = dollar := by
          have hh := congrArg List.head? hw
          rw [phS_head_append, List.cons_append, List.head?_cons] at hh
          exact (Option.some.inj hh).symm
        have hmem : c0 ∈ (phS x).toList.drop 1 := by
          have hmm : c0 ∈ (phS x).toList.drop (i - j) := by
            rw [hdd]; exact List.mem_cons_self _ _
          exact List.drop_subset_drop_left _ hd1 hmm
        rw [show (phS x).toList.drop 1 = (lbrace :: x.toList) ++ [rbrace] from rfl] at hmem
        exact absurd hc0 (phS_tail_no_dollar x hx c0 hmem)

theorem replaceFuel_nil (pat rep : List Char) (fuel : Nat) :
    replaceFuel pat rep fuel [] = [] := by
  cases fuel <;> rfl

theorem prefix_replaceFuel (pat rep : List Char) :
    ∀ (fuel : Nat) (s t : List Char), s.length ≤ fuel →
      t <+: s → (∀ i, occursAt pat s i → t.length ≤ i) →
      t <+: replaceFuel pat rep fuel s := by
  intro fuel
  induction fuel with
  | zero =>
      intro s t hlen hpre _
      have hs : s = [] := List.length_eq_zero.mp (Nat.le_zero.mp hlen)
      subst hs
      simpa [replaceFuel_nil] using hpre
  | succ fuel ih =>
      intro s t hlen hpre hocc
      cases s with
      | nil => simpa [replaceFuel_nil] using hpre
      | cons c rest =>
          cases t with
          | nil => exact List.nil_prefix
          | cons t0 t' =>
              obtain ⟨ht0, htpre⟩ := List.cons_prefix_cons.mp hpre
              have hnm : ¬(pat ≠ [] ∧ pat.isPrefixOf (c :: rest)) := by
                rintro ⟨hne, hp⟩
                have h0 : occursAt pat (c :: rest) 0 := by
                  unfold occursAt
                  rw [List.drop_zero]
                  exact List.isPrefixOf_iff_prefix.mp hp
                have hcon := hocc 0 h0
                simp at hcon
              rw [show replaceFuel pat rep (fuel + 1) (c :: rest)
                  = c :: replaceFuel pat rep fuel rest from by
                simp only [replaceFuel, if_neg hnm]]
              rw [List.cons_prefix_cons]
              refine ⟨ht0, ?_⟩
              apply ih rest t' (by simp at hlen; omega) htpre
              intro i hocci
              have hcon := hocc (i + 1) (occursAt_cons pat rest c i hocci)
              simp at hcon
              omega

theorem occurs_replaceFuel (pat rep t : List Char) (hpat : pat ≠ []) (ht : t ≠ []) :
    ∀ (fuel : Nat) (s : List Char), s.length ≤ fuel →
      (∀ i j, occursAt pat s i → occursAt t s j →
        i + pat.length ≤ j ∨ j + t.length ≤ i) →
      ∀ j, occursAt t s j → ∃ q, occursAt t (replaceFuel pat rep fuel s) q := by
  have hp1 : 1 ≤ pat.length := by
    cases pat with
    | nil => exact absurd rfl hpat
    | cons _ _ => simp
  have ht1 : 1 ≤ t.length := by
    cases t with
    | nil => exact absurd rfl ht
    | cons _ _ => simp
  intro fuel
  induction fuel with
  | zero =>
      intro s hlen _ j hj
      exfalso
      have hs : s = [] := List.length_eq_zero.mp (Nat.le_zero.mp hlen)
      subst hs
      unfold occursAt at hj
      rw [List.drop_nil] at hj
      exact ht ( List.prefix_nil.mp hj)
  | succ fuel ih =>
      intro s hlen hnov j hj
      cases s with
      | nil =>
          exfalso
          unfold occursAt at hj
          rw [List.drop_nil] at hj
          exact ht ( List.prefix_nil.mp hj)
      | cons c rest =>
          cases j with
          | zero =>
              refine ⟨0, ?_⟩
              unfold occursAt
              rw [List.drop_zero]
              apply prefix_replaceFuel pat rep (fuel + 1) (c :: rest) t hlen
              · unfold occursAt at hj
                rwa [List.drop_zero] at hj
              · intro i hocci
                rcases hnov i 0 hocci hj with h | h
                · omega
                · omega
          | succ j' =>
              by_cases hm : pat ≠ [] ∧ pat.isPrefixOf (c :: rest)
              · have hocc0 : occursAt pat (c :: rest) 0 := by
                  unfold occursAt
                  rw [List.drop_zero]
                  exact List.isPrefixOf_iff_prefix.mp hm.2
                have hjge : pat.length ≤ j' + 1 := by
                  rcases hnov 0 (j' + 1) hocc0 hj with h | h
                  · omega
                  · omega
                have hj2 : occursAt t ((c :: rest).drop pat.length) (j' + 1 - pat.length) :=
                  occursAt_drop_rev t (c :: rest) pat.length (j' + 1) hjge hj
                have hlen' : ((c :: rest).drop pat.length).length ≤ fuel := by
                  simp only [List.length_drop, List.length_cons]
                  simp only [List.length_cons] at hlen
                  omega
                have hnov' : ∀ i' j'', occursAt pat ((c :: rest).drop pat.length) i' →
                    occursAt t ((c :: rest).drop pat.length) j'' →
                    i' + pat.length ≤ j'' ∨ j'' + t.length ≤ i' := by
                  intro i' j'' hi' hj''
                  have ha := occursAt_drop pat (c :: rest) pat.length i' hi'
                  have hb := occursAt_drop t (c :: rest) pat.length j'' hj''
                  rcases hnov _ _ ha hb with h | h
                  · left; omega
                  · right; omega
                obtain ⟨q, hq⟩ :=
                  ih ((c :: rest).drop pat.length) hlen' hnov' (j' + 1 - pat.length) hj2
                refine ⟨rep.length + q, ?_⟩
                rw [show replaceFuel pat rep (fuel + 1) (c :: rest)
                    = rep ++ replaceFuel pat rep fuel ((c :: rest).drop pat.length) from by
                  simp only [replaceFuel, if_pos hm]]
                exact occursAt_append_left t rep _ q hq
              · have hj2 : occursAt t rest j' := occursAt_of_cons t rest c j' hj
                have hlen' : rest.length ≤ fuel := by
                  simp only [List.length_cons] at hlen
                  omega
                have hnov' : ∀ i' j'', occursAt pat rest i' → occursAt t rest j'' →
                    i' + pat.length ≤ j'' ∨ j'' + t.length ≤ i' := by
                  intro i' j'' hi' hj''
                  have ha := occursAt_cons pat rest c i' hi'
                  have hb := occursAt_cons t rest c j'' hj''
                  rcases hnov _ _ ha hb with h | h
                  · left; omega
                  · right; omega
                obtain ⟨q, hq⟩ := ih rest hlen' hnov' j' hj2
                refine ⟨q + 1, ?_⟩
                rw [show replaceFuel pat rep (fuel + 1) (c :: rest)
                    = c :: replaceFuel pat rep fuel rest from by
                  simp only [replaceFuel, if_neg hm]]
                exact occursAt_cons t _ c q hq

theorem containsStr_pyReplace (st : String) (n x : String) (w : String)
    (hn : cleanName n) (hx : cleanName x) (hnx : n ≠ x)
    (h : containsStr (phS x) st) :
    containsStr (phS x) (pyReplace st (phS n) w) := by
  rw [show containsStr (phS x) (pyReplace st (phS n) w)
      ↔ (phS x).toList <:+:
          replaceFuel (phS n).toList w.toList st.toList.length st.toList from Iff.rfl]
  rw [infix_iff_occursAt]
  obtain ⟨j, hj⟩ := (infix_iff_occursAt _ _).mp h
  have hpat : (phS n).toList ≠ [] := by rw [phS_toList]; simp
  have ht : (phS x).toList ≠ [] := by rw [phS_toList]; simp
  exact occurs_replaceFuel (phS n).toList w.toList (phS x).toList hpat ht
    st.toList.length st.toList (Nat.le_refl _) (ph_no_overlap n x hn hx hnx st.toList) j hj

/-- C5 counterexample: a binding whose name contains a closing brace
can overlap and consume an unresolved `${x}` placeholder, so the claim
that an unbound placeholder is always left verbatim fails on the code:
resolving the template `${x}}` with the single binding `x} -> Z`
produces `Z`, in which the placeholder `${x}` (whose name `x` is not
bound) no longer occurs. -/
theorem subTag_placeholder_destroyed_counterexample :
    SubTag.resolve "$\x7bx\x7d\x7d" [("x\x7d", Yaml.s "Z")] = "Z"
    ∧ containsStr (phS "x") "$\x7bx\x7d\x7d"
    ∧ lookupKey [("x\x7d", Yaml.s "Z")] "x" = none
    ∧ ¬ containsStr (phS "x") "Z" :=
  ⟨rfl, by decide, rfl, by decide⟩

/-- C5 amended: `SubTag.resolve` replaces, one pass per binding in
insertion order, every occurrence of `${name}` with the string form of
the bound value and never raises an error (it is a total function);
provided that the unresolved name and every binding name contain
neither a dollar sign nor a closing brace — so that one placeholder
cannot overlap another — every `${x}` placeholder occurring in the
template whose name `x` is not among the bindings still occurs
verbatim in the output. -/
theorem subTag_unresolved_placeholder_left_verbatim (x : String) (hx : cleanName x) :
    ∀ (bindings : List (String × Yaml)) (template : String),
      (∀ p ∈ bindings, cleanName p.1) →
      (∀ p ∈ bindings, p.1 ≠ x) →
      containsStr (phS x) template →
      containsStr (phS x) (SubTag.resolve template bindings) := by
  intro bindings
  induction bindings with
  | nil => intro template _ _ h; exact h
  | cons p rest ih =>
      intro template hb hnx h
      rw [show SubTag.resolve template (p :: rest)
          = SubTag.resolve (pyReplace template (phS p.1) (pyStr p.2)) rest from rfl]
      exact ih (pyReplace template (phS p.1) (pyStr p.2))
        (fun q hq => hb q (List.mem_cons_of_mem p hq))
        (fun q hq => hnx q (List.mem_cons_of_mem p hq))
        (containsStr_pyReplace template p.1 x (pyStr p.2)
          (hb p (List.mem_cons_self p rest)) hx (hnx p (List.mem_cons_self p rest)) h)

/-- Witness for the amended C5 at a concrete input: the unresolved
`${x}` survives a pass that substitutes the unrelated binding `env`. -/
theorem subTag_unresolved_placeholder_left_verbatim_witness :
    containsStr (phS "x") (SubTag.resolve "app-$\x7benv\x7d-$\x7bx\x7d"
      [("env", Yaml.s "prod")]) :=
  subTag_unresolved_placeholder_left_verbatim "x" (by decide)
    [("env", Yaml.s "prod")] "app-$\x7benv\x7d-$\x7bx\x7d"
    (by decide) (by decide) (by decide)

/-- C6 counterexample: text introduced by an earlier binding's
substituted value is substituted again by a later binding's pass:
resolving `${a}` with the insertion-ordered bindings
`a -> "${b}", b -> "X"` yields `X`, not the claimed untouched `${b}`. -/
theorem subTag_resubstitution_counterexample :
    SubTag.resolve "$\x7ba\x7d" [("a", Yaml.s "$\x7bb\x7d"), ("b", Yaml.s "X")] = "X"
    ∧ pyStr (Yaml.s "$\x7bb\x7d") = "$\x7bb\x7d"
    ∧ ("X" : String) ≠ "$\x7bb\x7d" :=
  ⟨rfl, rfl, by decide⟩

/-- C6 amended: resolution is a single replacement pass per binding in
the mapping's insertion order, each pass operating on the output of the
previous passes — so text introduced by a substituted value is never
re-scanned by the same binding's pass (a value containing its own
placeholder is emitted verbatim, second conjunct), while a later
binding's pass does process the text produced by earlier ones (first
conjunct). -/
theorem subTag_single_pass_per_binding :
    (∀ (template : String) (l₁ l₂ : List (String × Yaml)),
      SubTag.resolve template (l₁ ++ l₂)
        = SubTag.resolve (SubTag.resolve template l₁) l₂)
    ∧ (∀ (n : String) (v : Yaml), SubTag.resolve (phS n) [(n, v)] = pyStr v) := by
  constructor
  · intro template l₁ l₂
    unfold SubTag.resolve
    exact List.foldl_append _ _ _ _
  · intro n v
    rw [show SubTag.resolve (phS n) [(n, v)]
        = pyReplace (phS n) (phS n) (pyStr v) from rfl]
    unfold pyReplace
    cases hp : (phS n).toList with
    | nil =>
        exfalso
        have : (phS n).toList ≠ [] := by rw [phS_toList]; simp
        exact this hp
    | cons c crest =>
        rw [show (c :: crest).length = crest.length + 1 from rfl]
        rw [show replaceFuel (c :: crest) (pyStr v).toList (crest.length + 1) (c :: crest)
            = (pyStr v).toList ++ replaceFuel (c :: crest) (pyStr v).toList crest.length
                ((c :: crest).drop (c :: crest).length) from by
          have hcond : c :: crest ≠ [] ∧ (c :: crest).isPrefixOf (c :: crest) = true :=
            ⟨List.cons_ne_nil c crest, List.isPrefixOf_iff_prefix.mpr List.prefix_rfl⟩
          simp only [replaceFuel, if_pos hcond]]
        rw [List.drop_length, replaceFuel_nil, List.append_nil]
        rfl
